import Mathlib

/-!
Verification of the string-processing and control-flow core of
`ch08_pdf_ai_mod.py` (a Streamlit PDF → GPT-Vision summarize/translate app).

Python strings are modelled as `List Char`.  Each definition below is a
direct translation of the corresponding Python function; the external
libraries (Streamlit, PyMuPDF, the OpenAI client, python-docx, reportlab)
are modelled as oracles/abstract element lists, since only the repository's
own logic is under verification.
-/

set_option autoImplicit false

namespace PdfAi

/-- Python `str` modelled as a list of characters. -/
abbrev Str := List Char

/-- Whitespace test used by Python `str.strip()` (ASCII whitespace; the
exotic unicode whitespace characters stripped by Python do not occur in
any string this program manipulates). -/
def isSpace (c : Char) : Bool := c.isWhitespace

/-- Python `s.strip()`: remove leading and trailing whitespace. -/
def strip (s : Str) : Str :=
  ((s.dropWhile isSpace).reverse.dropWhile isSpace).reverse

/-- Python `s.split('\n')`: split on every newline; `""` splits to `[""]`. -/
def splitNl : Str → List Str
  | [] => [[]]
  | c :: rest =>
    match splitNl rest with
    | [] => [[]]
    | h :: t => if c = '\n' then [] :: h :: t else (c :: h) :: t

/-- Python `sep.join(ls)`. -/
def joinWith (sep : Str) : List Str → Str
  | [] => []
  | [l] => l
  | l :: l' :: rest => l ++ sep ++ joinWith sep (l' :: rest)

/-- Python `'\n'.join(ls)`. -/
def joinNl (ls : List Str) : Str := joinWith ['\n'] ls

/-- Python `l[-n:]` for a list: the last `n` elements (all of `l` when
`l` is shorter). -/
def lastN (n : Nat) (l : List Str) : List Str := l.drop (l.length - n)

/-- The `for line in reversed(lines[-10:])` loop of
`extract_context_for_next_page` (source lines 102-108).  `acc` is
`context_lines` (built by `insert(0, line)`), `len` is `current_length`. -/
def ecLoop (maxLength : Nat) : List Str → List Str → Nat → List Str × Nat
  | [], acc, len => (acc, len)
  | l :: rest, acc, len =>
    let l' := strip l
    if l' ≠ [] ∧ len + l'.length < maxLength then
      ecLoop maxLength rest (l' :: acc) (len + l'.length + 1)
    else if 0 < len then (acc, len)
    else ecLoop maxLength rest acc len

/-- Function `extract_context_for_next_page(content, max_length=800)`
(source lines 93-110). -/
def extract_context_for_next_page (content : Str) (maxLength : Nat) : Str :=
  if content = [] then []
  else
    let lines := splitNl content
    let r := ecLoop maxLength ((lastN 10 lines).reverse) [] 0
    strip (joinNl r.1)

/-- The "start part" loop of `extract_overlap_context` (source lines
124-131): append while the running sum of line lengths stays under the
budget, stop at the first line that does not fit. -/
def ovStart (maxLength : Nat) : List Str → List Str → Nat → List Str
  | [], acc, _ => acc
  | l :: rest, acc, len =>
    if len + l.length < maxLength then ovStart maxLength rest (acc ++ [l]) (len + l.length)
    else acc

/-- The "end part" loop of `extract_overlap_context` (source lines
134-141), iterating the reversed last five lines with `insert(0, line)`. -/
def ovEnd (maxLength : Nat) : List Str → List Str → Nat → List Str
  | [], acc, _ => acc
  | l :: rest, acc, len =>
    if len + l.length < maxLength then ovEnd maxLength rest (l :: acc) (len + l.length)
    else acc

/-- Function `extract_overlap_context(content, max_length=400)` (source lines
112-143): returns `(start_context, end_context)`. -/
def extract_overlap_context (content : Str) (maxLength : Nat) : Str × Str :=
  if content = [] then ([], [])
  else
    let lines := splitNl content
    let nonEmpty := (lines.map strip).filter (fun l => l ≠ [])
    if nonEmpty = [] then ([], [])
    else
      (joinNl (ovStart maxLength (nonEmpty.take 5) [] 0),
       joinNl (ovEnd maxLength ((lastN 5 nonEmpty).reverse) [] 0))

/-! ### The polish pass guard (source lines 355-368) -/

/-- The acceptance test of the post-hoc polish pass (source line 364):
`len(polished_result) > len(final_result) * 0.8`.  The literal `0.8` is a
Python float; at the string lengths this program produces the float
comparison agrees with the exact rational one, written here in
cross-multiplied form (`n > m * 4/5 ↔ 5n > 4m`). -/
def polishAccept (finalResult polished : Str) : Bool :=
  decide (4 * finalResult.length < 5 * polished.length)

/-- Source lines 364-368: keep the polished text if accepted, otherwise
fall back to the concatenated original. -/
def polishApply (finalResult polished : Str) : Str :=
  if polishAccept finalResult polished then polished else finalResult

/-! ### Timeouts of the three chat-completion call sites -/

/-- The three places that call `client.chat.completions.create`. -/
inductive CallSite
  | perImage   -- `analyze_single_image_with_context`, line 238
  | batch      -- batch mode of `analyze_images_with_gpt`, line 429
  | polishPass -- the polish call of `analyze_images_with_gpt`, line 355
deriving DecidableEq

/-- The `timeout=` argument passed at each call site (source lines 236,
359, 427): `180 if model.startswith("gpt-5") else 60` per image,
`240 … else 120` for the polish call, `180 … else 120` in batch mode. -/
def timeoutSeconds (model : Str) (site : CallSite) : Nat :=
  match site with
  | .perImage => if List.isPrefixOf "gpt-5".data model then 180 else 60
  | .batch => if List.isPrefixOf "gpt-5".data model then 180 else 120
  | .polishPass => if List.isPrefixOf "gpt-5".data model then 240 else 120

/-! ### The per-page analysis loop of `analyze_images_with_gpt`

The OpenAI client is modelled as an oracle `api : Nat → Option Str`
mapping the index of a chat-completion request (in issue order) to the
string returned by `analyze_single_image_with_context` for that request
(`none` models an exception or an absent/empty message, all of which make
that function return `None`).  Images enter the model only through their
count and their base64 lengths (`imgSizes`), which is all
`analyze_images_with_gpt` reads from them. -/

/-- Message `f"❌ [페이지 {i+1} 처리 실패]"` (source line 326). -/
def failMsg (pageNum : Nat) : Str :=
  "❌ [페이지 ".data ++ Nat.toDigits 10 pageNum ++ " 처리 실패]".data

/-- State of the `for i, base64_img in enumerate(base64_images)` loop
(source lines 294-328).  `callIdx` counts chat-completion requests issued
so far; `mainLog` records, for each page's main analysis call, the
`previous_context` passed to it and the value it returned. -/
structure PageState where
  callIdx : Nat
  results : List Str
  prevCtx : Str
  failedPages : List Nat
  mainLog : List (Str × Option Str)
deriving DecidableEq

def initPageState : PageState := ⟨0, [], [], [], []⟩

/-- One iteration of the per-page loop (source lines 297-328): a preview
call for the next page (only when a next page exists), then the main
analysis call; on a falsy result the page is recorded as failed and
`previous_context` is reset to `""`, otherwise the context for the next
page is extracted from the result with a budget of 800 characters. -/
def pageStep (api : Nat → Option Str) (n i : Nat) (s : PageState) : PageState :=
  let k1 := if i + 1 < n then s.callIdx + 1 else s.callIdx
  match api k1 with
  | some r =>
    if r ≠ [] then
      { callIdx := k1 + 1
        results := s.results ++ [r]
        prevCtx := extract_context_for_next_page r 800
        failedPages := s.failedPages
        mainLog := s.mainLog ++ [(s.prevCtx, some r)] }
    else
      { callIdx := k1 + 1
        results := s.results ++ [failMsg (i + 1)]
        prevCtx := []
        failedPages := s.failedPages ++ [i + 1]
        mainLog := s.mainLog ++ [(s.prevCtx, some r)] }
  | none =>
    { callIdx := k1 + 1
      results := s.results ++ [failMsg (i + 1)]
      prevCtx := []
      failedPages := s.failedPages ++ [i + 1]
      mainLog := s.mainLog ++ [(s.prevCtx, none)] }

/-- The whole per-page loop over pages `0 … n-1`. -/
def runPages (api : Nat → Option Str) (n : Nat) : PageState :=
  (List.range n).foldl (fun s i => pageStep api n i s) initPageState

/-- Source lines 280-285: `len(img) * 3 / 4 > 20 * 1024 * 1024` for some
image (the float arithmetic is exact at these magnitudes; the comparison
is written in cross-multiplied form). -/
def sizeLimitExceeded (imgSizes : List Nat) : Bool :=
  imgSizes.any (fun sz => decide (4 * (20 * 1024 * 1024) < 3 * sz))

/-- Source line 337: `len(base64_images) > 2 and len(final_result) > 3000
and len(failed_pages) <= len(base64_images) * 0.3` (again the float
`0.3` comparison is exact at these magnitudes; cross-multiplied form). -/
def polishCond (n : Nat) (finalResult : Str) (failedCount : Nat) : Bool :=
  decide (2 < n) && decide (3000 < finalResult.length) &&
    decide (10 * failedCount ≤ 3 * n)

/-- Function `analyze_images_with_gpt` (source lines 268-465), returning the final
text (`none` models returning `None`), the number of chat-completion
requests issued, and the per-page main-call log.  The guard clauses
(source lines 270-288), the separate-processing loop with the optional
polish pass (291-373), and the single batch call (425-465) are all
modelled; prompt construction is elided since no claim mentions it. -/
def analyzeImages (api : Nat → Option Str) (imgSizes : List Nat)
    (processSeparately : Bool) : Option Str × Nat × List (Str × Option Str) :=
  if imgSizes = [] then (none, 0, [])
  else if sizeLimitExceeded imgSizes then (none, 0, [])
  else if processSeparately ∧ 1 < imgSizes.length then
    let n := imgSizes.length
    let s := runPages api n
    let finalResult := joinWith "\n\n".data s.results
    if polishCond n finalResult s.failedPages.length then
      match api s.callIdx with
      | some p =>
        if p ≠ [] then (some (polishApply finalResult (strip p)), s.callIdx + 1, s.mainLog)
        else (some finalResult, s.callIdx + 1, s.mainLog)
      | none => (some finalResult, s.callIdx + 1, s.mainLog)
    else (some finalResult, s.callIdx, s.mainLog)
  else
    match api 0 with
    | some r => if strip r ≠ [] then (some (strip r), 1, []) else (none, 1, [])
    | none => (none, 1, [])

/-! ### Page selection in `main` (source lines 853-868)

Page numbers come from `st.number_input` widgets whose bounds (source
lines 750-761) keep them in `1 … total_pages`; they are modelled as `Nat`,
where truncated subtraction `startPage - 1` coincides with the source's
`max(0, start_page - 1)`. -/

inductive PageMode
  | single
  | pageRange
  | wholeDoc
deriving DecidableEq

/-- The image selection performed by the analysis button handler: single
page with an explicit bounds check, page range via a clamped slice
`base64_images[start_idx:end_idx]`, or the whole document. -/
def selectImages {α : Type} (mode : PageMode) (pageNumber startPage endPage : Nat)
    (imgs : List α) : List α :=
  match mode with
  | .single =>
    if h : pageNumber - 1 < imgs.length then [imgs.get ⟨pageNumber - 1, h⟩] else []
  | .pageRange =>
    let s := startPage - 1
    let e := min imgs.length endPage
    (imgs.drop s).take (e - s)
  | .wholeDoc => imgs

/-! ### Exporters (source lines 468-658)

python-docx and reportlab are external; what is verified is the sequence
of document elements each exporter emits.  A Word document is a list of
`DocElem`, a reportlab story a list of `PdfElem`, and the QMD export is
the very string written to the file. -/

/-- Python `s.replace(pat, '')`: delete every (left-to-right,
non-overlapping) occurrence of `pat`.  Structured with explicit fuel
(`s.length` suffices since every step consumes at least one character
when `pat` is non-empty). -/
def removeAllAux (pat : Str) : Nat → Str → Str
  | 0, s => s
  | _ + 1, [] => []
  | fuel + 1, c :: rest =>
    if pat ≠ [] ∧ List.isPrefixOf pat (c :: rest) then
      removeAllAux pat fuel ((c :: rest).drop pat.length)
    else c :: removeAllAux pat fuel rest

def removeAll (pat s : Str) : Str := removeAllAux pat s.length s

/-- Message `f"[{title}] 내용이 없습니다."` — the Word placeholder (line 541). -/
def wordMissing (title : Str) : Str := '[' :: title ++ "] 내용이 없습니다.".data

/-- Message `f"*{title} 내용이 없습니다.*"` — the QMD placeholder (line 490). -/
def qmdMissing (title : Str) : Str := '*' :: title ++ " 내용이 없습니다.*".data

inductive DocElem
  | heading (level : Nat) (text : Str)
  | para (text : Str)
  | pageBreak
deriving DecidableEq

/-- Word rendering of one line of a section body (source lines 520-538). -/
def wordLineElems (line : Str) : List DocElem :=
  let ls := strip line
  if ls = [] then [DocElem.para []]
  else if List.isPrefixOf "###".data ls then
    [DocElem.heading 3 (strip (removeAll "###".data ls))]
  else if List.isPrefixOf "##".data ls then
    [DocElem.heading 2 (strip (removeAll "##".data ls))]
  else if List.isPrefixOf "#".data ls then
    [DocElem.heading 2 (strip (removeAll "#".data ls))]
  else [DocElem.para ls]

/-- Word rendering of one section (source lines 511-546): a level-1 title
heading, then the body lines, or the placeholder when the text is empty
or whitespace-only, then a page break unless this is the last section. -/
def wordSectionElems (isLast : Bool) (sec : Str × Str) : List DocElem :=
  [DocElem.heading 1 sec.1] ++
    (if strip sec.2 ≠ [] then (splitNl sec.2).flatMap wordLineElems
     else [DocElem.para (wordMissing sec.1)]) ++
    (if isLast then [] else [DocElem.pageBreak])

/-- Function `save_to_word` (source lines 507-552) as the emitted element list;
sections are the ordered `**sections` keyword pairs. -/
def save_to_word_elems (sections : List (Str × Str)) : List DocElem :=
  sections.flatMap (fun sec => wordSectionElems (decide (sections.getLast? = some sec)) sec)

/-- The fixed YAML header of `save_to_qmd` (source lines 474-479). -/
def qmdHeader : List Str :=
  ["---".data, "title: \"PDF 분석 결과\"".data, "format: html".data,
   "editor: visual".data, "---".data, []]

/-- Lines appended for one section by `save_to_qmd` (lines 481-494). -/
def qmdSectionLines (sec : Str × Str) : List Str :=
  ["# ".data ++ sec.1, []] ++
    (if strip sec.2 ≠ [] then [sec.2] else [qmdMissing sec.1]) ++
    [[], "---".data, []]

/-- The full line list of `save_to_qmd` after the trailing-separator
removal (lines 496-498: drop the last two lines when the second-to-last
line is `"---"`). -/
def qmdLines (sections : List (Str × Str)) : List Str :=
  let ls := qmdHeader ++ sections.flatMap qmdSectionLines
  if ls[ls.length - 2]? = some "---".data then ls.take (ls.length - 2) else ls

/-- The string `save_to_qmd` writes to the file (line 501). -/
def save_to_qmd_content (sections : List (Str × Str)) : Str :=
  joinNl (qmdLines sections)

inductive PdfElem
  | pg (text : Str) (bold : Bool)
  | spacer
  | pageBreak
deriving DecidableEq

/-- The sequential HTML escaping of source lines 616-620. -/
def escapeHtml (s : Str) : Str :=
  s.flatMap (fun c =>
    if c = '&' then "&amp;".data
    else if c = '<' then "&lt;".data
    else if c = '>' then "&gt;".data
    else if c = '"' then "&quot;".data
    else [c])

/-- PDF story elements for one line of a section body (source lines
611-646); blank lines produce nothing. -/
def pdfLineElems (line : Str) : List PdfElem :=
  let lc := strip line
  if lc = [] then []
  else
    let le := escapeHtml lc
    (if List.isPrefixOf "###".data le then [PdfElem.pg (strip (removeAll "###".data le)) true]
     else if List.isPrefixOf "##".data le then [PdfElem.pg (strip (removeAll "##".data le)) true]
     else if List.isPrefixOf "#".data le then [PdfElem.pg (strip (removeAll "#".data le)) true]
     else [PdfElem.pg le false]) ++ [PdfElem.spacer]

/-- PDF story for one section (source lines 602-651): bold title and a
spacer, the body lines when the text is non-blank — and, unlike the Word
and QMD exporters, nothing at all for an empty section — then a page
break unless this is the last section. -/
def pdfSectionElems (isLast : Bool) (sec : Str × Str) : List PdfElem :=
  [PdfElem.pg sec.1 true, PdfElem.spacer] ++
    (if strip sec.2 ≠ [] then (splitNl sec.2).flatMap pdfLineElems else []) ++
    (if isLast then [] else [PdfElem.pageBreak])

/-- Function `save_to_pdf` (source lines 555-658) as the reportlab story it
builds. -/
def save_to_pdf_story (sections : List (Str × Str)) : List PdfElem :=
  sections.flatMap (fun sec => pdfSectionElems (decide (sections.getLast? = some sec)) sec)

/-! ### Error classification (source lines 82-91, 252-261, 457-465) -/

/-- Python `pat in s` for strings. -/
def containsSub (pat : Str) : Str → Bool
  | [] => List.isPrefixOf pat []
  | c :: rest => List.isPrefixOf pat (c :: rest) || containsSub pat rest

/-- Python `s.lower()` (ASCII is all that the matched patterns use). -/
def lowerStr (s : Str) : Str := s.map Char.toLower

/-- The categories the program distinguishes, by substring matching on
the stringified exception. -/
inductive ErrCat
  | invalidKey
  | quotaExceeded
  | modelAccess
  | timedOut
  | rateLimited
  | generic
deriving DecidableEq

/-- The classification of `validate_openai_api_key`'s except branch
(source lines 82-91). -/
def classifyValidationError (msg : Str) : ErrCat :=
  if containsSub "Incorrect API key".data msg then .invalidKey
  else if containsSub "You exceeded your current quota".data msg then .quotaExceeded
  else if containsSub "does not exist".data msg then .modelAccess
  else .generic

/-- The classification shared by the except branches of
`analyze_single_image_with_context` (lines 252-261) and of the batch mode
of `analyze_images_with_gpt` (lines 457-465). -/
def classifyAnalysisError (msg : Str) : ErrCat :=
  if containsSub "timeout".data (lowerStr msg) then .timedOut
  else if containsSub "rate limit".data (lowerStr msg) then .rateLimited
  else .generic

/-- Function `validate_openai_api_key` given the outcome of the `models.list`
call: on success `(client, True, None)` becomes the `true` flag, on an
exception with text `e` the function returns the failure flag together
with the classified user-visible message category. -/
def validate_openai_api_key (outcome : Except Str Unit) : Bool × Option ErrCat :=
  match outcome with
  | .ok _ => (true, none)
  | .error e => (false, some (classifyValidationError e))

/-- The except branch of `analyze_single_image_with_context`: the
exception text is classified, shown, and the function returns `None`. -/
def analyzeSingleOnError (e : Str) : Option Str × ErrCat :=
  (none, classifyAnalysisError e)

/-! ### `cleanup_temp_files` (source lines 56-66)

The filesystem is an oracle: `kind` tells what each path currently is and
`failOf` gives the text of the exception raised inside the per-path `try`
block, if any. -/

inductive PathKind
  | file
  | dir
  | missing
deriving DecidableEq

structure FileSys where
  kind : Str → PathKind
  failOf : Str → Option Str

/-- The body of one iteration of the cleanup loop: `Except.error e`
models the per-path exception, `Except.ok true` a deletion, and
`Except.ok false` a path that no longer exists (no action taken). -/
def deleteOne (fs : FileSys) (p : Str) : Except Str Bool :=
  match fs.failOf p with
  | some e => .error e
  | none => match fs.kind p with
    | .missing => .ok false
    | _ => .ok true

/-- Message `f"임시 파일 정리 중 오류: {e}"` (source line 66). -/
def cleanupWarning (e : Str) : Str := "임시 파일 정리 중 오류: ".data ++ e

/-- Function `cleanup_temp_files`: every path is attempted in order; a failing
path only contributes a warning (the per-path `try`/`except` swallows
the exception) and the loop moves on.  Returns the deleted paths and the
warnings shown. -/
def cleanup_temp_files (fs : FileSys) : List Str → List Str × List Str
  | [] => ([], [])
  | p :: rest =>
    let r := cleanup_temp_files fs rest
    match deleteOne fs p with
    | .ok true => (p :: r.1, r.2)
    | .ok false => r
    | .error e => (r.1, cleanupWarning e :: r.2)

/-! ## Theorems -/

/-! ### C8: cleanup never fails and attempts every path -/

/-- Claim C8: `cleanup_temp_files` never raises — the per-path fallible
operation is `Except`-valued, yet the loop itself is a total function
into plain pairs because each failure is caught and becomes a warning —
and a failing path does not stop the loop: the deleted paths and the
warnings are each a filter over the *entire* input list, so every path
after a failing one is still attempted. -/
theorem C8_cleanup_total (fs : FileSys) (paths : List Str) :
    (cleanup_temp_files fs paths).1 =
      paths.filter (fun p => (fs.failOf p).isNone && !decide (fs.kind p = PathKind.missing)) ∧
    (cleanup_temp_files fs paths).2 =
      (paths.filter (fun p => !(fs.failOf p).isNone)).map
        (fun p => cleanupWarning ((fs.failOf p).getD [])) := by
  induction paths with
  | nil => exact ⟨rfl, rfl⟩
  | cons p rest ih =>
    obtain ⟨ih1, ih2⟩ := ih
    simp only [cleanup_temp_files, deleteOne, List.filter_cons, List.map]
    cases hf : fs.failOf p with
    | some e =>
      simp only [hf, Option.isNone_some, Bool.false_and, Bool.not_false, if_neg, ih1, ih2]
      constructor
      · simp
      · simp [List.filter_cons, hf]
    | none =>
      cases hk : fs.kind p with
      | missing =>
        simp only [hf, hk]
        constructor
        · simp [List.filter_cons, hf, hk, ih1]
        · simp [List.filter_cons, hf, ih2]
      | file =>
        simp only [hf, hk]
        constructor
        · simp [List.filter_cons, hf, hk, ih1]
        · simp [List.filter_cons, hf, ih2]
      | dir =>
        simp only [hf, hk]
        constructor
        · simp [List.filter_cons, hf, hk, ih1]
        · simp [List.filter_cons, hf, ih2]

/-! ### C4: page selection stays inside the document -/

/-- Claim C4: in all three page-selection modes, every image submitted
for analysis is an element of the loaded image list obtained at an index
`i` with `i < page count`: the single-page mode is guarded by an explicit
bounds check and the page-range slice is clamped to the list length. -/
theorem C4_page_selection_in_bounds {α : Type} (mode : PageMode)
    (pageNumber startPage endPage : Nat) (imgs : List α) (x : α)
    (hx : x ∈ selectImages mode pageNumber startPage endPage imgs) :
    ∃ i : Fin imgs.length, imgs.get i = x := by
  have hmem : x ∈ imgs := by
    cases mode with
    | single =>
      simp only [selectImages] at hx
      split at hx
      · next h =>
        rw [List.mem_singleton] at hx
        subst hx
        exact List.get_mem _ _ _
      · simp at hx
    | pageRange =>
      simp only [selectImages] at hx
      exact List.mem_of_mem_drop (List.mem_of_mem_take hx)
    | wholeDoc => exact hx
  obtain ⟨n, hn⟩ := List.get_of_mem hmem
  exact ⟨n, hn⟩

/-- Witness for C4 at a concrete selection: page range 2-3 of a
three-page document. -/
theorem C4_witness :
    ∃ i : Fin (['x', 'y', 'z'] : List Char).length, ['x', 'y', 'z'].get i = 'y' :=
  C4_page_selection_in_bounds PageMode.pageRange 1 2 3 ['x', 'y', 'z'] 'y' (by decide)

/-! ### C10: the 20 MB per-image gate -/

/-- Claim C10: if any single base64 image's estimated decoded size
(`len * 3/4`, here in the exact cross-multiplied form `3·len > 4·20MiB`)
exceeds 20 MiB, `analyze_images_with_gpt` returns `None` having issued no
chat-completion request at all. -/
theorem C10_size_limit (api : Nat → Option Str) (imgSizes : List Nat)
    (processSeparately : Bool)
    (h : ∃ sz ∈ imgSizes, 4 * (20 * 1024 * 1024) < 3 * sz) :
    analyzeImages api imgSizes processSeparately = (none, 0, []) := by
  obtain ⟨sz, hmem, hsz⟩ := h
  have hne : imgSizes ≠ [] := List.ne_nil_of_mem hmem
  have hex : sizeLimitExceeded imgSizes = true := by
    simp only [sizeLimitExceeded, List.any_eq_true]
    exact ⟨sz, hmem, by simpa using hsz⟩
  simp only [analyzeImages, if_neg hne, hex, if_pos rfl]
  simp

/-- Witness for C10: one 27 962 027-character base64 image (estimated
decoded size just over 20 MiB) short-circuits the function. -/
theorem C10_witness :
    analyzeImages (fun _ => none) [27962027] true = (none, 0, []) :=
  C10_size_limit (fun _ => none) [27962027] true ⟨27962027, by decide, by decide⟩

/-! ### C7: error classification by substring matching -/

/-- Counterexample to claim C7: the key-validation handler recognises a
sixth category by matching the substring "does not exist" (the
model-not-accessible message of source line 89), which is none of the
five categories the claim enumerates (invalid credential, quota,
timeout, rate limit, generic). -/
theorem C7_counterexample :
    classifyValidationError "The model abc does not exist".data = ErrCat.modelAccess ∧
      ErrCat.modelAccess ∉ [ErrCat.invalidKey, ErrCat.quotaExceeded, ErrCat.timedOut,
        ErrCat.rateLimited, ErrCat.generic] := by
  constructor
  · decide
  · decide

/-- Amended claim C7: every failure of an external API call is classified
purely by substring matching on the error text — the classification is a
function of the substring-presence flags alone — into one of six
categories (invalid credential, quota exceeded, model not accessible,
timeout, rate limit, generic), and the failing function returns a failure
flag / `None` together with the user-visible category instead of
propagating the exception. -/
theorem C7_amended :
    (∀ e, validate_openai_api_key (Except.error e) = (false, some (classifyValidationError e))) ∧
    (∀ e, classifyValidationError e ∈
      [ErrCat.invalidKey, ErrCat.quotaExceeded, ErrCat.modelAccess, ErrCat.generic]) ∧
    (∀ e, analyzeSingleOnError e = (none, classifyAnalysisError e)) ∧
    (∀ e, classifyAnalysisError e ∈ [ErrCat.timedOut, ErrCat.rateLimited, ErrCat.generic]) ∧
    (∀ e₁ e₂,
      containsSub "Incorrect API key".data e₁ = containsSub "Incorrect API key".data e₂ →
      containsSub "You exceeded your current quota".data e₁ =
        containsSub "You exceeded your current quota".data e₂ →
      containsSub "does not exist".data e₁ = containsSub "does not exist".data e₂ →
      classifyValidationError e₁ = classifyValidationError e₂) ∧
    (∀ e₁ e₂,
      containsSub "timeout".data (lowerStr e₁) = containsSub "timeout".data (lowerStr e₂) →
      containsSub "rate limit".data (lowerStr e₁) = containsSub "rate limit".data (lowerStr e₂) →
      classifyAnalysisError e₁ = classifyAnalysisError e₂) := by
  refine ⟨fun e => rfl, fun e => ?_, fun e => rfl, fun e => ?_, fun e₁ e₂ h1 h2 h3 => ?_,
    fun e₁ e₂ h1 h2 => ?_⟩
  · unfold classifyValidationError
    split
    · simp
    · split
      · simp
      · split <;> simp
  · unfold classifyAnalysisError
    split
    · simp
    · split <;> simp
  · unfold classifyValidationError
    rw [h1, h2, h3]
  · unfold classifyAnalysisError
    rw [h1, h2]

/-- Witness for C7: the purity and containment statements applied at
concrete error strings. -/
theorem C7_amended_witness :
    classifyValidationError "boom".data = classifyValidationError "bang".data ∧
      classifyAnalysisError "Request TIMEOUT".data = classifyAnalysisError "timeout!".data := by
  constructor
  · exact C7_amended.2.2.2.2.1 "boom".data "bang".data (by decide) (by decide) (by decide)
  · exact C7_amended.2.2.2.2.2 "Request TIMEOUT".data "timeout!".data (by decide) (by decide)

/-! ### C2: the polish acceptance threshold -/

/-- Counterexample to claim C2: a polished text whose length is exactly
80% of the input's length (8 characters against 10) is *rejected* — the
guard is the strict `>`, so "at least 80% is accepted" is false. -/
theorem C2_counterexample :
    ((List.replicate 8 'b' : Str).length : ℚ) =
        ((List.replicate 10 'a' : Str).length : ℚ) * (4 / 5) ∧
      polishApply (List.replicate 10 'a') (List.replicate 8 'b') = List.replicate 10 'a' := by
  constructor
  · norm_num
  · decide

/-- Amended claim C2: the polish pass's rewritten text is rejected (the
concatenated originals are kept) exactly when its length is *at most*
80% of the input's length; equivalently it is accepted only when its
length strictly exceeds 80% of the input's. -/
theorem C2_polish_threshold (finalResult polished : Str) :
    (polishAccept finalResult polished = false ↔
      (polished.length : ℚ) ≤ (finalResult.length : ℚ) * (4 / 5)) ∧
    (polishAccept finalResult polished = false → polishApply finalResult polished = finalResult) ∧
    (polishAccept finalResult polished = true → polishApply finalResult polished = polished) := by
  refine ⟨?_, fun h => by simp [polishApply, h], fun h => by simp [polishApply, h]⟩
  rw [polishAccept, decide_eq_false_iff_not, Nat.not_lt]
  rw [show ((finalResult.length : ℚ) * (4 / 5)) = (4 * finalResult.length : ℚ) / 5 by ring]
  rw [le_div_iff₀ (by norm_num)]
  constructor
  · intro h
    calc ((polished.length : ℚ)) * 5 = ((5 * polished.length : ℕ) : ℚ) := by push_cast; ring
    _ ≤ ((4 * finalResult.length : ℕ) : ℚ) := by exact_mod_cast h
    _ = (4 * finalResult.length : ℚ) := by push_cast; ring
  · intro h
    have : ((5 * polished.length : ℕ) : ℚ) ≤ ((4 * finalResult.length : ℕ) : ℚ) := by
      push_cast
      linarith
    exact_mod_cast this

/-- Witness for C2 at concrete strings: a 9-character polished text
against a 10-character input is accepted. -/
theorem C2_polish_threshold_witness :
    polishApply (List.replicate 10 'a') (List.replicate 9 'b') = List.replicate 9 'b' :=
  (C2_polish_threshold (List.replicate 10 'a') (List.replicate 9 'b')).2.2 (by decide)

/-! ### C5: one request per action, but the timeout is not one constant -/

/-- Each page iteration issues exactly one main request plus one preview
request when a next page exists — regardless of whether its calls
succeed or fail. -/
theorem pageStep_callIdx (api : Nat → Option Str) (n i : Nat) (s : PageState) :
    (pageStep api n i s).callIdx = s.callIdx + (if i + 1 < n then 2 else 1) := by
  by_cases hin : i + 1 < n
  · simp only [pageStep, if_pos hin]
    cases api (s.callIdx + 1) with
    | some r =>
      by_cases hr : r = []
      · simp [hr]
      · simp [hr]
    | none => simp
  · simp only [pageStep, if_neg hin]
    cases api s.callIdx with
    | some r =>
      by_cases hr : r = []
      · simp [hr]
      · simp [hr]
    | none => simp

/-- Requests issued by a run of the page loop over any index list. -/
theorem foldl_pageStep_callIdx (api : Nat → Option Str) (n : Nat) (L : List Nat)
    (s : PageState) :
    ((L.foldl (fun s i => pageStep api n i s) s).callIdx) =
      s.callIdx + (L.map (fun i => if i + 1 < n then 2 else 1)).sum := by
  induction L generalizing s with
  | nil => simp
  | cons i L' ih =>
    simp only [List.foldl_cons, List.map_cons, List.sum_cons]
    rw [ih, pageStep_callIdx]
    omega

/-- A full run over `n ≥ 1` pages issues exactly `2n - 1` requests. -/
theorem runPages_callIdx (api : Nat → Option Str) (n : Nat) (hn : 1 ≤ n) :
    (runPages api n).callIdx = 2 * n - 1 := by
  obtain ⟨m, rfl⟩ : ∃ m, n = m + 1 := ⟨n - 1, by omega⟩
  unfold runPages
  rw [foldl_pageStep_callIdx]
  have hmap : (List.range m).map (fun i => if i + 1 < m + 1 then 2 else 1) =
      List.replicate m 2 := by
    have h1 := @List.eq_replicate_of_mem Nat 2
      ((List.range m).map (fun i => if i + 1 < m + 1 then 2 else 1))
      (by
        intro b hb
        obtain ⟨i, hi, rfl⟩ := List.mem_map.mp hb
        rw [List.mem_range] at hi
        rw [if_pos (by omega)])
    rw [List.length_map, List.length_range] at h1
    exact h1
  rw [List.range_succ, List.map_append, hmap]
  simp [List.sum_replicate, initPageState]
  omega

/-- Counterexample to claim C5: the timeout passed to the model client is
*not* a single fixed constant — it differs between models (180 s for a
gpt-5 model vs 60 s otherwise at the per-image call site) and between
processing modes (60 s per-image vs 120 s batch for the same model). -/
theorem C5_counterexample :
    timeoutSeconds "gpt-5".data CallSite.perImage ≠
        timeoutSeconds "gpt-4o-mini".data CallSite.perImage ∧
      timeoutSeconds "gpt-4o-mini".data CallSite.perImage ≠
        timeoutSeconds "gpt-4o-mini".data CallSite.batch := by
  constructor
  · decide
  · decide

/-- Amended claim C5: no code path re-issues a failed chat-completion
request — in per-page mode the number of requests issued is exactly
`2n - 1` plus one optional polish request, and in batch mode exactly one,
independently of which requests fail — but the timeout is fixed only per
call site and model family: 180/60 s per image, 180/120 s batch,
240/120 s polish, for gpt-5-prefixed models vs the rest. -/
theorem C5_single_attempt_fixed_timeouts :
    (∀ (api : Nat → Option Str) (imgSizes : List Nat), 2 ≤ imgSizes.length →
      sizeLimitExceeded imgSizes = false →
      (analyzeImages api imgSizes true).2.1 =
        2 * imgSizes.length - 1 +
          (if polishCond imgSizes.length
              (joinWith "\n\n".data (runPages api imgSizes.length).results)
              (runPages api imgSizes.length).failedPages.length = true then 1 else 0)) ∧
    (∀ (api : Nat → Option Str) (imgSizes : List Nat), imgSizes ≠ [] →
      sizeLimitExceeded imgSizes = false →
      (analyzeImages api imgSizes false).2.1 = 1) ∧
    (∀ m : Str, timeoutSeconds m CallSite.perImage =
        if List.isPrefixOf "gpt-5".data m then 180 else 60) ∧
    (timeoutSeconds "gpt-4o-mini".data CallSite.perImage = 60 ∧
      timeoutSeconds "gpt-4o".data CallSite.perImage = 60 ∧
      timeoutSeconds "gpt-4o-2024-11-20".data CallSite.perImage = 60 ∧
      timeoutSeconds "gpt-5-mini".data CallSite.perImage = 180 ∧
      timeoutSeconds "gpt-5".data CallSite.perImage = 180) ∧
    (timeoutSeconds "gpt-4o-mini".data CallSite.batch = 120 ∧
      timeoutSeconds "gpt-5".data CallSite.batch = 180 ∧
      timeoutSeconds "gpt-4o-mini".data CallSite.polishPass = 120 ∧
      timeoutSeconds "gpt-5".data CallSite.polishPass = 240) := by
  refine ⟨?_, ?_, fun m => rfl, by decide, by decide⟩
  · intro api imgSizes hlen hsz
    have hne : imgSizes ≠ [] := by
      intro h
      rw [h] at hlen
      simp at hlen
    have hcount := runPages_callIdx api imgSizes.length (by omega)
    simp only [analyzeImages, if_neg hne, hsz, Bool.false_eq_true, not_false_eq_true,
      if_neg, if_pos, true_and, if_true]
    rw [if_pos (show 1 < imgSizes.length by omega)]
    by_cases hpol : polishCond imgSizes.length
        (joinWith "\n\n".data (runPages api imgSizes.length).results)
        (runPages api imgSizes.length).failedPages.length = true
    · rw [if_pos hpol, if_pos hpol]
      cases hapi : api (runPages api imgSizes.length).callIdx with
      | some p =>
        by_cases hp : p = []
        · simp [hp, hcount]
        · simp [hp, hcount]
      | none => simp [hcount]
    · rw [if_neg hpol, if_neg hpol]
      simp [hcount]
  · intro api imgSizes hne hsz
    simp only [analyzeImages, if_neg hne, hsz, Bool.false_eq_true, not_false_eq_true, if_neg]
    rw [if_neg (show ¬(False ∧ 1 < imgSizes.length) from fun h => h.1.elim)]
    cases hapi : api 0 with
    | some r =>
      by_cases hsr : strip r = []
      · simp [hsr]
      · simp [hsr]
    | none => rfl

/-- Witness for C5: a concrete two-page run with one failing call issues
exactly three requests, and a concrete batch run issues one. -/
theorem C5_witness :
    (analyzeImages (fun k => if k = 1 then some "r1\nr2".data else none) [5, 5] true).2.1 =
        2 * 2 - 1 + 0 ∧
      (analyzeImages (fun _ => some "ok".data) [5] false).2.1 = 1 := by
  constructor
  · have h := C5_single_attempt_fixed_timeouts.1
      (fun k => if k = 1 then some "r1\nr2".data else none) [5, 5] (by decide) (by decide)
    rw [h]
    decide
  · exact C5_single_attempt_fixed_timeouts.2.1 (fun _ => some "ok".data) [5] (by decide)
      (by decide)

/-! ### C1: character budgets of the context-window extraction -/

/-- Total length of a line list counting one joining newline per line
(the quantity tracked by `current_length` in
`extract_context_for_next_page`). -/
def accLen (ls : List Str) : Nat := (ls.map (fun l => l.length + 1)).sum

/-- Total length of a line list not counting newlines (the quantity
tracked by `start_length`/`end_length` in `extract_overlap_context`). -/
def sumLen (ls : List Str) : Nat := (ls.map List.length).sum

theorem accLen_eq_sumLen_add_length (ls : List Str) : accLen ls = sumLen ls + ls.length := by
  induction ls with
  | nil => rfl
  | cons l rest ih =>
    simp only [accLen, sumLen, List.map_cons, List.sum_cons, List.length_cons] at *
    omega

theorem joinNl_length (ls : List Str) (h : ls ≠ []) : (joinNl ls).length + 1 = accLen ls := by
  induction ls with
  | nil => exact absurd rfl h
  | cons l rest ih =>
    cases rest with
    | nil => simp [joinNl, joinWith, accLen]
    | cons l' rest' =>
      have h' := ih (by simp)
      unfold joinNl at h'
      show (l ++ ['\n'] ++ joinWith ['\n'] (l' :: rest')).length + 1 = accLen (l :: l' :: rest')
      have hacc : accLen (l :: l' :: rest') = l.length + 1 + accLen (l' :: rest') := by
        simp only [accLen, List.map_cons, List.sum_cons]
      rw [List.length_append, List.length_append, hacc]
      simp only [List.length_cons, List.length_nil] at h' ⊢
      omega

theorem strip_length_le (s : Str) : (strip s).length ≤ s.length := by
  unfold strip
  simp only [List.length_reverse]
  have h1 : (List.dropWhile isSpace s).length ≤ s.length :=
    (List.dropWhile_suffix isSpace).sublist.length_le
  have h2 : (List.dropWhile isSpace (List.dropWhile isSpace s).reverse).length ≤
      (List.dropWhile isSpace s).reverse.length :=
    (List.dropWhile_suffix isSpace).sublist.length_le
  rw [List.length_reverse] at h2
  omega

/-- Loop invariant of `extract_context_for_next_page`: `current_length`
equals the accumulated length (newlines included) of the collected lines
and never exceeds the budget. -/
theorem ecLoop_spec (m : Nat) (todo : List Str) :
    ∀ (acc : List Str) (len : Nat), len = accLen acc → len ≤ m →
      (ecLoop m todo acc len).2 = accLen (ecLoop m todo acc len).1 ∧
        (ecLoop m todo acc len).2 ≤ m := by
  induction todo with
  | nil => intro acc len h1 h2; exact ⟨h1, h2⟩
  | cons l rest ih =>
    intro acc len h1 h2
    simp only [ecLoop]
    split
    · next hc =>
      exact ih _ _ (by simp only [accLen, List.map_cons, List.sum_cons] at *; omega)
        (by omega)
    · split
      · exact ⟨h1, h2⟩
      · exact ih _ _ h1 h2

/-- Loop invariant of the two loops of `extract_overlap_context`:
the running sum equals the sum of collected line lengths (newlines not
counted), stays under the budget once non-empty, and the collected list
is no longer than what has been offered. -/
theorem ovStart_spec (m : Nat) (todo : List Str) :
    ∀ (acc : List Str) (len : Nat), len = sumLen acc → (acc = [] ∨ sumLen acc < m) →
      (ovStart m todo acc len = [] ∨ sumLen (ovStart m todo acc len) < m) ∧
        (ovStart m todo acc len).length ≤ acc.length + todo.length := by
  induction todo with
  | nil =>
    intro acc len h1 h2
    simp only [ovStart]
    exact ⟨h2, by omega⟩
  | cons l rest ih =>
    intro acc len h1 h2
    simp only [ovStart]
    split
    · next hc =>
      have hsum : sumLen (acc ++ [l]) = sumLen acc + l.length := by
        simp [sumLen]
      have hrec := ih (acc ++ [l]) (len + l.length) (by omega) (by right; omega)
      refine ⟨hrec.1, ?_⟩
      have hl := hrec.2
      simp only [List.length_append, List.length_cons, List.length_nil] at hl ⊢
      omega
    · exact ⟨h2, by omega⟩

theorem ovEnd_spec (m : Nat) (todo : List Str) :
    ∀ (acc : List Str) (len : Nat), len = sumLen acc → (acc = [] ∨ sumLen acc < m) →
      (ovEnd m todo acc len = [] ∨ sumLen (ovEnd m todo acc len) < m) ∧
        (ovEnd m todo acc len).length ≤ acc.length + todo.length := by
  induction todo with
  | nil =>
    intro acc len h1 h2
    simp only [ovEnd]
    exact ⟨h2, by omega⟩
  | cons l rest ih =>
    intro acc len h1 h2
    simp only [ovEnd]
    split
    · next hc =>
      have hsum : sumLen (l :: acc) = l.length + sumLen acc := by
        simp [sumLen]
      have hrec := ih (l :: acc) (len + l.length) (by omega) (by right; omega)
      refine ⟨hrec.1, ?_⟩
      have hl := hrec.2
      simp only [List.length_cons] at hl ⊢
      omega
    · exact ⟨h2, by omega⟩

/-- A five-element window's worth of lines joined with newlines stays
under `m + 4` when the sum of the line lengths stays under `m`. -/
theorem joinNl_lt_of_sumLen_lt (ls : List Str) (m : Nat) (hlen : ls.length ≤ 5)
    (h : ls = [] ∨ sumLen ls < m) : (joinNl ls).length < m + 4 := by
  have h0 : (joinNl ([] : List Str)).length = 0 := rfl
  cases h with
  | inl h => subst h; omega
  | inr h =>
    cases ls with
    | nil => omega
    | cons a t =>
      have hj := joinNl_length (a :: t) (by simp)
      have ha := accLen_eq_sumLen_add_length (a :: t)
      rw [List.length_cons] at ha hlen
      omega

set_option maxRecDepth 100000 in
/-- Counterexample to claim C1: `extract_overlap_context` does *not*
count the joining newlines against its budget — on five lines of lengths
99, 99, 99, 99, 3 and a budget of 400 the returned start context has
length 403. -/
theorem C1_counterexample :
    ¬ ((extract_overlap_context
        (joinNl [List.replicate 99 'a', List.replicate 99 'a', List.replicate 99 'a',
          List.replicate 99 'a', List.replicate 3 'a']) 400).1.length < 400) := by
  decide

/-- Amended claim C1: `extract_context_for_next_page` does stay strictly
below any positive budget (its `current_length` counts the newlines),
but `extract_overlap_context` bounds only the sum of the selected line
lengths, so each of its two returned strings is only guaranteed to stay
below `max_length + 4` (at most five lines are selected, joined by up to
four uncounted newlines). -/
theorem C1_budget (content : Str) (m : Nat) (hm : 0 < m) :
    (extract_context_for_next_page content m).length < m ∧
      (extract_overlap_context content m).1.length < m + 4 ∧
      (extract_overlap_context content m).2.length < m + 4 := by
  refine ⟨?_, ?_, ?_⟩
  · simp only [extract_context_for_next_page]
    split
    · simpa using hm
    · obtain ⟨h1, h2⟩ := ecLoop_spec m ((lastN 10 (splitNl content)).reverse) [] 0 rfl (by omega)
      have hs := strip_length_le
        (joinNl (ecLoop m ((lastN 10 (splitNl content)).reverse) [] 0).1)
      cases hr1 : (ecLoop m ((lastN 10 (splitNl content)).reverse) [] 0).1 with
      | nil =>
        rw [hr1] at hs
        have h0 : (joinNl ([] : List Str)).length = 0 := rfl
        omega
      | cons a t =>
        rw [hr1] at h1 hs
        have hj := joinNl_length (a :: t) (by simp)
        rw [h1] at h2
        omega
  · simp only [extract_overlap_context]
    split
    · show ([] : Str).length < m + 4
      simp only [List.length_nil]
      omega
    · split
      · show ([] : Str).length < m + 4
        simp only [List.length_nil]
        omega
      · show (joinNl (ovStart m
            ((((splitNl content).map strip).filter (fun l => l ≠ [])).take 5) [] 0)).length <
          m + 4
        have hs := ovStart_spec m
          ((((splitNl content).map strip).filter (fun l => l ≠ [])).take 5) [] 0 rfl (Or.inl rfl)
        apply joinNl_lt_of_sumLen_lt _ _ _ hs.1
        have hlen := hs.2
        rw [List.length_nil] at hlen
        have htake :
            (((((splitNl content).map strip).filter (fun l => l ≠ []))).take 5).length ≤ 5 := by
          simp [List.length_take]
        omega
  · simp only [extract_overlap_context]
    split
    · show ([] : Str).length < m + 4
      simp only [List.length_nil]
      omega
    · split
      · show ([] : Str).length < m + 4
        simp only [List.length_nil]
        omega
      · show (joinNl (ovEnd m
            ((lastN 5 (((splitNl content).map strip).filter (fun l => l ≠ []))).reverse)
            [] 0)).length < m + 4
        have hs := ovEnd_spec m
          ((lastN 5 (((splitNl content).map strip).filter (fun l => l ≠ []))).reverse) [] 0 rfl
          (Or.inl rfl)
        apply joinNl_lt_of_sumLen_lt _ _ _ hs.1
        have hlen := hs.2
        rw [List.length_nil] at hlen
        have hdrop :
            ((lastN 5 (((splitNl content).map strip).filter (fun l => l ≠ []))).reverse).length ≤
              5 := by
          simp only [lastN, List.length_reverse, List.length_drop]
          omega
        omega

/-- Witness for C1 at a concrete budget and input. -/
theorem C1_budget_witness :
    (extract_context_for_next_page "one\ntwo".data 800).length < 800 ∧
      (extract_overlap_context "one\ntwo".data 800).1.length < 800 + 4 ∧
      (extract_overlap_context "one\ntwo".data 800).2.length < 800 + 4 :=
  C1_budget "one\ntwo".data 800 (by decide)

/-! ### C3: which lines the next-page context actually keeps -/

theorem accLen_reverse (ls : List Str) : accLen ls.reverse = accLen ls := by
  unfold accLen
  rw [List.map_reverse, List.sum_reverse]

/-- When every offered line is non-blank after stripping and everything
fits the budget, the loop of `extract_context_for_next_page` accepts all
of them. -/
theorem ecLoop_all (m : Nat) (todo : List Str) :
    ∀ (acc : List Str) (len : Nat), (∀ l ∈ todo, strip l ≠ []) →
      len + accLen (todo.map strip) ≤ m →
      ecLoop m todo acc len =
        ((todo.map strip).reverse ++ acc, len + accLen (todo.map strip)) := by
  induction todo with
  | nil =>
    intro acc len _ _
    simp [ecLoop, accLen]
  | cons l rest ih =>
    intro acc len hne hfit
    have hsl : strip l ≠ [] := hne l (by simp)
    have hacc : accLen ((l :: rest).map strip) =
        (strip l).length + 1 + accLen (rest.map strip) := by
      simp only [List.map_cons, accLen, List.sum_cons]
    simp only [ecLoop]
    rw [if_pos ⟨hsl, by omega⟩]
    rw [ih (strip l :: acc) (len + (strip l).length + 1)
      (fun l' hl' => hne l' (by simp [hl'])) (by omega)]
    simp only [Prod.mk.injEq]
    exact ⟨by simp [List.reverse_cons, List.append_assoc], by omega⟩

theorem dropWhile_head_not (p : Char → Bool) :
    ∀ (l : Str) (c : Char) (rest : Str), l.dropWhile p = c :: rest → p c = false := by
  intro l
  induction l with
  | nil => intro c rest h; simp [List.dropWhile] at h
  | cons a t ih =>
    intro c rest h
    rw [List.dropWhile_cons] at h
    split at h
    · exact ih _ _ h
    · next hpa =>
      cases h
      simpa using hpa

theorem getLast?_dropWhile (p : Char → Bool) :
    ∀ l : Str, l.dropWhile p ≠ [] → (l.dropWhile p).getLast? = l.getLast? := by
  intro l
  induction l with
  | nil => intro h; simp [List.dropWhile] at h
  | cons a t ih =>
    intro h
    rw [List.dropWhile_cons] at h ⊢
    by_cases hpa : p a
    · rw [if_pos hpa] at h ⊢
      have ht : t ≠ [] := by
        intro h0
        subst h0
        simp [List.dropWhile] at h
      rw [ih h]
      cases t with
      | nil => exact absurd rfl ht
      | cons b t' => simp [List.getLast?_cons_cons]
    · rw [if_neg hpa]

theorem strip_eq_of_boundary (s : Str)
    (hh : ∀ c, s.head? = some c → isSpace c = false)
    (hl : ∀ c, s.getLast? = some c → isSpace c = false) : strip s = s := by
  cases s with
  | nil => rfl
  | cons a t =>
    have h1 : List.dropWhile isSpace (a :: t) = a :: t := by
      rw [List.dropWhile_cons, if_neg (by simp [hh a rfl])]
    rw [strip, h1]
    have h2 : List.dropWhile isSpace (a :: t).reverse = (a :: t).reverse := by
      cases hr : (a :: t).reverse with
      | nil => rfl
      | cons b u =>
        have hb : (a :: t).getLast? = some b := by
          rw [← List.head?_reverse, hr]
          rfl
        rw [List.dropWhile_cons, if_neg (by simp [hl b hb])]
    rw [h2, List.reverse_reverse]

theorem strip_head_not_space (s : Str) :
    ∀ c, (strip s).head? = some c → isSpace c = false := by
  intro c hc
  rw [strip, List.head?_reverse] at hc
  have hne : List.dropWhile isSpace (List.dropWhile isSpace s).reverse ≠ [] := by
    intro h0
    rw [h0] at hc
    simp at hc
  rw [getLast?_dropWhile isSpace _ hne, List.getLast?_reverse] at hc
  cases hd : List.dropWhile isSpace s with
  | nil => rw [hd] at hc; simp at hc
  | cons d u =>
    rw [hd] at hc
    have hdc : d = c := by simpa using hc
    subst hdc
    exact dropWhile_head_not isSpace s _ _ hd

theorem strip_last_not_space (s : Str) :
    ∀ c, (strip s).getLast? = some c → isSpace c = false := by
  intro c hc
  rw [strip, List.getLast?_reverse] at hc
  cases hd : List.dropWhile isSpace (List.dropWhile isSpace s).reverse with
  | nil => rw [hd] at hc; simp at hc
  | cons d u =>
    rw [hd] at hc
    have hdc : d = c := by simpa using hc
    subst hdc
    exact dropWhile_head_not isSpace _ _ _ hd

theorem joinNl_ne_nil (ls : List Str) (h0 : ls ≠ []) (h1 : ∀ l ∈ ls, l ≠ []) :
    joinNl ls ≠ [] := by
  cases ls with
  | nil => exact absurd rfl h0
  | cons l t =>
    cases t with
    | nil => exact h1 l (by simp)
    | cons l' t' =>
      simp only [joinNl, joinWith, ne_eq, List.append_eq_nil]
      intro h
      exact h1 l (by simp) h.1.1

theorem joinNl_head? (ls : List Str) (h1 : ∀ l ∈ ls, l ≠ []) :
    ∀ (l : Str) (t : List Str), ls = l :: t → (joinNl ls).head? = l.head? := by
  intro l t h
  subst h
  cases t with
  | nil => rfl
  | cons l' t' =>
    have hl : l ≠ [] := h1 l (by simp)
    cases l with
    | nil => exact absurd rfl hl
    | cons a u => simp [joinNl, joinWith]

theorem joinNl_getLast? (ls : List Str) :
    (∀ l ∈ ls, l ≠ []) → ∀ lst, ls.getLast? = some lst →
      (joinNl ls).getLast? = lst.getLast? := by
  induction ls with
  | nil => intro _ lst h; simp at h
  | cons l t ih =>
    intro h1 lst hlst
    cases t with
    | nil =>
      have hll : l = lst := by simpa using hlst
      subst hll
      rfl
    | cons l' t' =>
      have hjoin : joinNl (l :: l' :: t') = (l ++ ['\n']) ++ joinNl (l' :: t') := by
        simp [joinNl, joinWith, List.append_assoc]
      rw [hjoin, List.getLast?_append_of_ne_nil _
        (joinNl_ne_nil (l' :: t') (by simp) (fun x hx => h1 x (by simp [hx])))]
      exact ih (fun x hx => h1 x (by simp [hx])) lst (by simpa using hlst)

/-- Joining already-stripped non-blank lines with newlines is a fixed
point of `strip`. -/
theorem strip_joinNl (ls : List Str) (h1 : ∀ l ∈ ls, l ≠ [])
    (hh : ∀ l ∈ ls, ∀ c, l.head? = some c → isSpace c = false)
    (hl : ∀ l ∈ ls, ∀ c, l.getLast? = some c → isSpace c = false) :
    strip (joinNl ls) = joinNl ls := by
  cases hls : ls with
  | nil => rfl
  | cons a t =>
    subst hls
    apply strip_eq_of_boundary
    · intro c hc
      rw [joinNl_head? (a :: t) h1 a t rfl] at hc
      exact hh a (by simp) c hc
    · intro c hc
      have hsome : ∃ lst, (a :: t).getLast? = some lst := by
        cases hg : (a :: t).getLast? with
        | none => simp at hg
        | some x => exact ⟨x, rfl⟩
      obtain ⟨lst, hlst⟩ := hsome
      rw [joinNl_getLast? (a :: t) h1 lst hlst] at hc
      have hmem : lst ∈ a :: t := by
        have hx : lst ∈ (a :: t).getLast? := Option.mem_def.mpr hlst
        obtain ⟨hne', heq⟩ := List.mem_getLast?_eq_getLast hx
        rw [heq]
        exact List.getLast_mem hne'
      exact hl lst hmem c hc

/-- Counterexample to claim C3: on `"a\n\nb"` with budget 800 both
trailing non-empty lines `"a"` and `"b"` fit comfortably, yet the
extracted context is just `"b"`: the blank line between them stops the
backwards scan and drops `"a"`. -/
theorem C3_counterexample :
    extract_context_for_next_page "a\n\nb".data 800 = "b".data ∧
      "a".data ∈ lastN 10 (splitNl "a\n\nb".data) ∧
      strip "a".data ≠ [] ∧
      accLen ((lastN 10 (splitNl "a\n\nb".data)).map strip) ≤ 800 ∧
      "a".data ∉ splitNl (extract_context_for_next_page "a\n\nb".data 800) := by
  decide

/-- Amended claim C3: the backwards scan stops at the first blank (or
non-fitting) line once it has accepted a line, so blank lines can cut
off earlier non-empty lines; but when every one of the last ten lines is
non-blank after stripping and they jointly fit the budget (newlines
counted), the context is exactly all ten stripped lines joined by
newlines. -/
theorem C3_all_nonblank_lines_kept (content : Str) (m : Nat)
    (hne : ∀ l ∈ lastN 10 (splitNl content), strip l ≠ [])
    (hfit : accLen ((lastN 10 (splitNl content)).map strip) ≤ m) :
    extract_context_for_next_page content m =
      joinNl ((lastN 10 (splitNl content)).map strip) := by
  have hcne : content ≠ [] := by
    intro h
    subst h
    exact hne [] (by decide) rfl
  simp only [extract_context_for_next_page, if_neg hcne]
  rw [ecLoop_all m ((lastN 10 (splitNl content)).reverse) [] 0
    (fun l hl => hne l (List.mem_reverse.mp hl))
    (by
      rw [List.map_reverse, accLen_reverse]
      omega)]
  simp only [List.append_nil, List.map_reverse, List.reverse_reverse]
  apply strip_joinNl
  · intro l hl
    obtain ⟨x, hx, rfl⟩ := List.mem_map.mp hl
    exact hne x hx
  · intro l hl c hc
    obtain ⟨x, hx, rfl⟩ := List.mem_map.mp hl
    exact strip_head_not_space x c hc
  · intro l hl c hc
    obtain ⟨x, hx, rfl⟩ := List.mem_map.mp hl
    exact strip_last_not_space x c hc

/-- Witness for C3 at a two-line output. -/
theorem C3_witness :
    extract_context_for_next_page "one\ntwo".data 800 =
      joinNl ((lastN 10 (splitNl "one\ntwo".data)).map strip) :=
  C3_all_nonblank_lines_kept "one\ntwo".data 800 (by decide) (by decide)

/-! ### C9: a failed page resets the carried context -/

/-- The `previous_context` value the loop carries into the next
iteration, as a function of one main-call log entry. -/
def nextCtxOf (e : Str × Option Str) : Str :=
  match e.2 with
  | some r => if r ≠ [] then extract_context_for_next_page r 800 else []
  | none => []

/-- The main-call log is a chain: each entry's context is the one the
previous entry's outcome induces.  `chainOk c log c'` says the chain
starts at context `c` and leaves context `c'` for the next page. -/
def chainOk : Str → List (Str × Option Str) → Str → Prop
  | c, [], c' => c' = c
  | c, e :: rest, c' => e.1 = c ∧ chainOk (nextCtxOf e) rest c'

theorem chainOk_snoc :
    ∀ (log : List (Str × Option Str)) (c d : Str) (e : Str × Option Str),
      chainOk c log d → e.1 = d → chainOk c (log ++ [e]) (nextCtxOf e) := by
  intro log
  induction log with
  | nil =>
    intro c d e h1 h2
    exact ⟨h2.trans h1, rfl⟩
  | cons f rest ih =>
    intro c d e h1 h2
    exact ⟨h1.1, ih _ _ _ h1.2 h2⟩

theorem pageStep_chain (api : Nat → Option Str) (n i : Nat) (s : PageState)
    (h : chainOk [] s.mainLog s.prevCtx) :
    chainOk [] (pageStep api n i s).mainLog (pageStep api n i s).prevCtx := by
  simp only [pageStep]
  cases api (if i + 1 < n then s.callIdx + 1 else s.callIdx) with
  | some r =>
    by_cases hr : r = []
    · subst hr
      simp only [ne_eq, not_true_eq_false, if_neg, reduceIte]
      have hsnoc := chainOk_snoc s.mainLog [] s.prevCtx (s.prevCtx, some []) h rfl
      simpa [nextCtxOf] using hsnoc
    · simp only [ne_eq, hr, not_false_eq_true, if_pos, reduceIte]
      have hsnoc := chainOk_snoc s.mainLog [] s.prevCtx (s.prevCtx, some r) h rfl
      simpa [nextCtxOf, hr] using hsnoc
  | none =>
    have hsnoc := chainOk_snoc s.mainLog [] s.prevCtx (s.prevCtx, none) h rfl
    simpa [nextCtxOf] using hsnoc

theorem runPages_chain (api : Nat → Option Str) (n : Nat) :
    chainOk [] (runPages api n).mainLog (runPages api n).prevCtx := by
  have haux : ∀ (L : List Nat) (s : PageState), chainOk [] s.mainLog s.prevCtx →
      chainOk [] ((L.foldl (fun s i => pageStep api n i s)) s).mainLog
        ((L.foldl (fun s i => pageStep api n i s)) s).prevCtx := by
    intro L
    induction L with
    | nil => intro s h; exact h
    | cons i L' ih =>
      intro s h
      exact ih _ (pageStep_chain api n i s h)
  exact haux (List.range n) initPageState rfl

theorem chainOk_get :
    ∀ (log : List (Str × Option Str)) (c d : Str) (j : Nat) (e e' : Str × Option Str),
      chainOk c log d → log[j]? = some e → log[j + 1]? = some e' →
      e'.1 = nextCtxOf e := by
  intro log
  induction log with
  | nil =>
    intro c d j e e' _ h1 _
    simp at h1
  | cons f rest ih =>
    intro c d j e e' h h1 h2
    cases j with
    | zero =>
      have he : f = e := by simpa using h1
      subst he
      cases rest with
      | nil => simp at h2
      | cons g rest' =>
        have he' : g = e' := by simpa using h2
        subst he'
        exact h.2.1
    | succ j' =>
      exact ih _ _ j' e e' h.2 (by simpa using h1) (by simpa using h2)

/-- Claim C9: in per-page mode, the `previous_context` passed to the main
analysis call of page `i+1` is the empty string whenever page `i`'s call
returned no (or an empty) result, and otherwise is
`extract_context_for_next_page` of page `i`'s output with a budget of
800 characters. -/
theorem C9_context_reset (api : Nat → Option Str) (n j : Nat) (e e' : Str × Option Str)
    (h1 : (runPages api n).mainLog[j]? = some e)
    (h2 : (runPages api n).mainLog[j + 1]? = some e') :
    e'.1 = (match e.2 with
      | some r => if r ≠ [] then extract_context_for_next_page r 800 else []
      | none => []) :=
  chainOk_get (runPages api n).mainLog [] (runPages api n).prevCtx j e e'
    (runPages_chain api n) h1 h2

/-- Witness for C9: with two pages where page 1 succeeds and page 2
fails, the context recorded for page 2's call is the 800-budget
extraction of page 1's output. -/
theorem C9_witness :
    (("r1\nr2".data, (none : Option Str)) : Str × Option Str).1 =
      (match ((([] : Str), some "r1\nr2".data) : Str × Option Str).2 with
        | some r => if r ≠ [] then extract_context_for_next_page r 800 else []
        | none => []) :=
  C9_context_reset (fun k => if k = 1 then some "r1\nr2".data else none) 2 0
    (([] : Str), some "r1\nr2".data) ("r1\nr2".data, (none : Option Str))
    (by decide) (by decide)

/-! ### C6: exporter output for non-empty and empty sections -/

/-- The lines a section contributes to the QMD file before the trailing
separator, i.e. `qmdSectionLines` without its final `["---", ""]`. -/
def qmdSectFront (sec : Str × Str) : List Str :=
  ["# ".data ++ sec.1, []] ++
    (if strip sec.2 ≠ [] then [sec.2] else [qmdMissing sec.1]) ++ [[]]

theorem qmdSectionLines_eq (sec : Str × Str) :
    qmdSectionLines sec = qmdSectFront sec ++ ["---".data, []] := by
  by_cases h : strip sec.2 = [] <;> simp [qmdSectionLines, qmdSectFront, h]

/-- The trailing-separator removal of `save_to_qmd` removes exactly the
last section's closing `["---", ""]`. -/
theorem qmdLines_concat (init : List (Str × Str)) (lastSec : Str × Str) :
    qmdLines (init ++ [lastSec]) =
      qmdHeader ++ init.flatMap qmdSectionLines ++ qmdSectFront lastSec := by
  have hall : qmdHeader ++ (init ++ [lastSec]).flatMap qmdSectionLines =
      (qmdHeader ++ init.flatMap qmdSectionLines ++ qmdSectFront lastSec) ++
        ["---".data, []] := by
    rw [List.flatMap_append]
    simp only [List.flatMap_cons, List.flatMap_nil, List.append_nil,
      qmdSectionLines_eq lastSec, List.append_assoc]
  simp only [qmdLines]
  rw [hall]
  have hlen :
      ((qmdHeader ++ init.flatMap qmdSectionLines ++ qmdSectFront lastSec) ++
        ["---".data, ([] : Str)]).length - 2 =
      (qmdHeader ++ init.flatMap qmdSectionLines ++ qmdSectFront lastSec).length := by
    simp
    omega
  rw [hlen]
  rw [List.getElem?_append_right (le_refl _)]
  simp only [Nat.sub_self]
  rw [if_pos (by rfl)]
  exact List.take_left _ _

theorem joinNl_cons_ne_nil (l : Str) (t : List Str) (h : l ≠ []) : joinNl (l :: t) ≠ [] := by
  cases t with
  | nil => exact h
  | cons l' t' => simp [joinNl, joinWith, List.append_eq_nil, h]

/-- Counterexample to claim C6: the PDF exporter writes *no* placeholder
for an empty section — its story for a single empty section is just the
bold title and a spacer, and no element of it mentions the
missing-content message the other two exporters use. -/
theorem C6_counterexample :
    save_to_pdf_story [("T".data, ([] : Str))] =
        [PdfElem.pg "T".data true, PdfElem.spacer] ∧
      (save_to_pdf_story [("T".data, ([] : Str))]).all
        (fun e => match e with
          | PdfElem.pg s _ => !(containsSub "내용이 없습니다".data s)
          | _ => true) = true := by
  constructor
  · decide
  · decide

/-- Amended claim C6: for every section of every export, the Word and
QMD exporters emit the section title and, for an empty or
whitespace-only text, a placeholder message naming the section (the
non-blank text itself otherwise, for QMD), and their outputs are
non-empty; the PDF exporter emits the title but *no* placeholder for an
empty section — an empty section contributes only its bold title and a
spacer (plus the page break between sections). -/
theorem C6_exporters (sections : List (Str × Str)) (t c : Str)
    (hmem : (t, c) ∈ sections) :
    (DocElem.heading 1 t ∈ save_to_word_elems sections ∧
      (strip c = [] → DocElem.para (wordMissing t) ∈ save_to_word_elems sections) ∧
      save_to_word_elems sections ≠ []) ∧
    (("# ".data ++ t) ∈ qmdLines sections ∧
      (strip c = [] → qmdMissing t ∈ qmdLines sections) ∧
      (strip c ≠ [] → c ∈ qmdLines sections) ∧
      save_to_qmd_content sections ≠ []) ∧
    (PdfElem.pg t true ∈ save_to_pdf_story sections ∧
      (∀ b : Bool, strip c = [] → pdfSectionElems b (t, c) =
        [PdfElem.pg t true, PdfElem.spacer] ++ (if b then [] else [PdfElem.pageBreak])) ∧
      save_to_pdf_story sections ≠ []) := by
  have hne : sections ≠ [] := List.ne_nil_of_mem hmem
  obtain ⟨init, lastSec, rfl⟩ :
      ∃ init lastSec, sections = init ++ [lastSec] := by
    rcases List.eq_nil_or_concat sections with h | ⟨L, b, h⟩
    · exact absurd h hne
    · exact ⟨L, b, by simpa [List.concat_eq_append] using h⟩
  have hword : DocElem.heading 1 t ∈ save_to_word_elems (init ++ [lastSec]) :=
    List.mem_flatMap.mpr ⟨(t, c), hmem, by simp [wordSectionElems]⟩
  have hpdf : PdfElem.pg t true ∈ save_to_pdf_story (init ++ [lastSec]) :=
    List.mem_flatMap.mpr ⟨(t, c), hmem, by simp [pdfSectionElems]⟩
  have hqmd : ∀ x : Str, x ∈ qmdSectionLines (t, c) → x ∈ qmdSectFront (t, c) →
      x ∈ qmdLines (init ++ [lastSec]) := by
    intro x hx1 hx2
    rw [qmdLines_concat]
    rcases List.mem_append.mp hmem with hin | hlast
    · exact List.mem_append.mpr (Or.inl (List.mem_append.mpr
        (Or.inr (List.mem_flatMap.mpr ⟨(t, c), hin, hx1⟩))))
    · have : (t, c) = lastSec := List.mem_singleton.mp hlast
      subst this
      exact List.mem_append.mpr (Or.inr hx2)
  refine ⟨⟨hword, ?_, List.ne_nil_of_mem hword⟩,
    ⟨?_, ?_, ?_, ?_⟩, ⟨hpdf, ?_, List.ne_nil_of_mem hpdf⟩⟩
  · intro h
    exact List.mem_flatMap.mpr ⟨(t, c), hmem, by simp [wordSectionElems, h]⟩
  · exact hqmd _ (by simp [qmdSectionLines]) (by simp [qmdSectFront])
  · intro h
    exact hqmd _ (by simp [qmdSectionLines, h]) (by simp [qmdSectFront, h])
  · intro h
    exact hqmd _ (by simp [qmdSectionLines, h]) (by simp [qmdSectFront, h])
  · unfold save_to_qmd_content
    rw [qmdLines_concat]
    show joinNl ("---".data :: _) ≠ []
    exact joinNl_cons_ne_nil _ _ (by decide)
  · intro b h
    simp [pdfSectionElems, h]

/-- Witness for C6 at a concrete two-section export whose second section
is whitespace-only. -/
theorem C6_exporters_witness :
    DocElem.heading 1 "B".data ∈
        save_to_word_elems [("A".data, "x".data), ("B".data, " ".data)] ∧
      qmdMissing "B".data ∈ qmdLines [("A".data, "x".data), ("B".data, " ".data)] := by
  have h := C6_exporters [("A".data, "x".data), ("B".data, " ".data)] "B".data " ".data
    (by decide)
  exact ⟨h.1.1, h.2.1.2.1 (by decide)⟩

end PdfAi
